import Mathlib

/-!
Shallow embedding of `telegram_from_serial.py` (DSMR P1 telegram reader).

Raw meter bytes are ASCII, so a raw byte line is modelled as a `List Char`
(each char standing for the byte with that code point).  Python `str`
values are also `List Char`.  Fallible Python operations (ones that raise)
return `Option`.
-/

/-- The single-quote character `'` (code 39), used by Python `bytes.__repr__`. -/
def quoteC : Char := Char.ofNat 39

/-- The double-quote character `"` (code 34). -/
def dquoteC : Char := Char.ofNat 34

/-- Convert a Lean string literal to the `List Char` representation used throughout. -/
def chrs (s : String) : List Char := s.toList

/-- Test `leadsWith pre l`: true when `pre` is an initial segment of `l`. -/
def leadsWith : List Char → List Char → Bool
  | [], _ => true
  | _ :: _, [] => false
  | a :: as, b :: bs => if a = b then leadsWith as bs else false

/-- Index of the first occurrence of `needle` inside `hay` (Python `str.find`,
when the result is not `-1`). -/
def findSub (needle : List Char) : List Char → Option Nat
  | [] => if leadsWith needle [] then some 0 else none
  | c :: rest =>
    if leadsWith needle (c :: rest) then some 0
    else (findSub needle rest).map (· + 1)

/-- Python's `needle in hay` substring test. -/
def containsSub (needle hay : List Char) : Bool := (findSub needle hay).isSome

/-- Fuelled worker for `splitOn`; the fuel bounds the number of separator hits. -/
def splitOnFuel (sep : List Char) : Nat → List Char → List (List Char)
  | 0, s => [s]
  | fuel + 1, s =>
    match findSub sep s with
    | none => [s]
    | some i => s.take i :: splitOnFuel sep fuel (s.drop (i + sep.length))

/-- Python `s.split(sep)` for a non-empty separator (line 203 of the source). -/
def splitOn (sep s : List Char) : List (List Char) := splitOnFuel sep s.length s

/-- Python `s.lstrip(cutset)`: drop leading characters belonging to the set. -/
def pyLstrip (cutset : List Char) (s : List Char) : List Char :=
  s.dropWhile (fun c => decide (c ∈ cutset))

/-- Python `s.rstrip(cutset)`: drop trailing characters belonging to the set.
Note this strips by CHARACTER SET, not by suffix string. -/
def pyRstrip (cutset : List Char) (s : List Char) : List Char :=
  (s.reverse.dropWhile (fun c => decide (c ∈ cutset))).reverse

/-- Numeric value of a decimal digit string (most significant first). -/
def natOfDigits (ds : List Char) : Nat := ds.foldl (fun a c => 10 * a + (c.toNat - 48)) 0

/-- Python `float(s)` on the fragment of float syntax that telegram payloads can
produce: an optional sign followed by decimal digits with at most one dot and at
least one digit.  Exponents, `inf`/`nan`, underscores and surrounding whitespace
never occur in stripped payloads and are not modelled; on everything else the
function returns `none`, standing for the `ValueError` Python raises. -/
def pyFloatCore (l : List Char) (sgn : ℚ) : Option ℚ :=
  let ip := l.takeWhile Char.isDigit
  let r2 := l.dropWhile Char.isDigit
  match r2 with
  | [] => if ip = [] then none else some (sgn * natOfDigits ip)
  | c :: frac =>
    if c = '.' then
      if (∀ d ∈ frac, d.isDigit = true) ∧ (ip ≠ [] ∨ frac ≠ []) then
        some (sgn * ((natOfDigits ip : ℚ) + (natOfDigits frac : ℚ) / (10 : ℚ) ^ frac.length))
      else none
    else none

/-- Python `float(s)`; see `pyFloatCore` for the modelled fragment. -/
def pyFloat : List Char → Option ℚ
  | [] => none
  | c :: rest =>
    if c = '-' then pyFloatCore rest (-1)
    else if c = '+' then pyFloatCore rest 1
    else pyFloatCore (c :: rest) 1

/-- One bit round of the reflected CRC-16 with polynomial 0xA001. -/
def crcRound (c : Nat) : Nat := if c % 2 = 1 then (c / 2) ^^^ 0xA001 else c / 2

/-- Feed one byte into the CRC state. -/
def crcByte (c b : Nat) : Nat := crcRound^[8] (c ^^^ b)

/-- Model of `crcmod.predefined.mkPredefinedCrcFun('crc16')` (line 68): CRC-16/ARC,
polynomial 0x8005 reflected, init 0, no final xor. -/
def crc16 (bs : List Nat) : Nat := bs.foldl crcByte 0

/-- Fuelled worker for `parenGroups`. -/
def parenGroupsFuel : Nat → List Char → List (List Char)
  | 0, _ => []
  | _, [] => []
  | fuel + 1, c :: rest =>
    if c = '(' then
      match findSub [')'] rest with
      | some j =>
        if '\n' ∈ rest.take j then parenGroupsFuel fuel rest
        else rest.take j :: parenGroupsFuel fuel (rest.drop (j + 1))
      | none => parenGroupsFuel fuel rest
    else parenGroupsFuel fuel rest

/-- Python `re.findall('\\((.*?)\\)', s)` (line 287): every non-overlapping match
of a `(`, a shortest run of non-newline characters, then `)`; the returned
pieces are the captured groups between the parentheses. -/
def parenGroups (s : List Char) : List (List Char) := parenGroupsFuel s.length s

/-- Python `int` whitespace characters. -/
def isPySpace (c : Char) : Bool := c.toNat ∈ [32, 9, 10, 13, 11, 12]

/-- Hexadecimal digit test. -/
def isHexDigitC (c : Char) : Bool :=
  (48 ≤ c.toNat ∧ c.toNat ≤ 57) ∨ (97 ≤ c.toNat ∧ c.toNat ≤ 102) ∨ (65 ≤ c.toNat ∧ c.toNat ≤ 70)

/-- Value of one hexadecimal digit. -/
def hexDigitVal (c : Char) : Nat :=
  if c.toNat ≤ 57 then c.toNat - 48
  else if c.toNat ≤ 70 then c.toNat - 55
  else c.toNat - 87

/-- Python `int('0x' + s, 16)` (line 183): hexadecimal digits optionally followed
by whitespace; anything else raises `ValueError` (`none`).  (Digit-group
underscores, legal in Python, never occur in a telegram and are not modelled.) -/
def pyIntHex (s : List Char) : Option Nat :=
  let ds := s.takeWhile isHexDigitC
  let rest := s.dropWhile isHexDigitC
  if ds ≠ [] ∧ (∀ c ∈ rest, isPySpace c = true) then
    some (ds.foldl (fun a c => 16 * a + hexDigitVal c) 0)
  else none

/-- Lower-case hexadecimal digit character, as printed by Python. -/
def hexDigitChar (n : Nat) : Char :=
  if n < 10 then Char.ofNat (48 + n) else Char.ofNat (87 + n)

/-- Escape of one byte inside `bytes.__repr__` with quote character `qc`. -/
def escChar (qc : Char) (c : Char) : List Char :=
  if c = '\\' then ['\\', '\\']
  else if c = qc then ['\\', qc]
  else if c.toNat = 13 then ['\\', 'r']
  else if c.toNat = 10 then ['\\', 'n']
  else if c.toNat = 9 then ['\\', 't']
  else if 32 ≤ c.toNat ∧ c.toNat ≤ 126 then [c]
  else ['\\', 'x', hexDigitChar (c.toNat / 16 % 16), hexDigitChar (c.toNat % 16)]

/-- Quote character chosen by `bytes.__repr__`: single quote unless the bytes
contain a single quote and no double quote. -/
def reprQuote (bs : List Char) : Char :=
  if quoteC ∈ bs ∧ ¬ dquoteC ∈ bs then dquoteC else quoteC

/-- Python `str(b)` for a bytes object `b`: the text `b'...'` with escapes.
This is what lines 159/163 concatenate onto the telegram, because `telegram`
is a `str` while `telegram_line` is `bytes`. -/
def pyBytesRepr (bs : List Char) : List Char :=
  'b' :: reprQuote bs :: (bs.map (escChar (reprQuote bs))).flatten ++ [reprQuote bs]

/-- Frame assembly (lines 151-163): every line read, terminator included, is
appended to the telegram as its Python `str(bytes)` text. -/
def accumulateTelegram (lines : List (List Char)) : List Char :=
  (lines.map pyBytesRepr).flatten

/-- End positions (`m.end()`) of every match of the pattern `\r\n(?=!)`
(line 66) in the accumulated telegram text, as found by `re.finditer`
(line 180): a CR LF pair immediately followed by `!`. -/
def termMatchEnds (s : List Char) : List Nat :=
  ((List.range s.length).filter
      (fun i => decide ((s.drop i).take 3 = ['\r', '\n', '!']))).map (fun i => i + 2)

/-- State built by the checksum loop of lines 180-188. -/
structure ScanState where
  good : Bool
  given : Option Nat
  computed : Option Nat
deriving DecidableEq

/-- The checksum loop (lines 180-188): for every terminator match, parse the
hex digits after `!` and CRC-16 the text up to and including `!`, setting the
good flag on agreement.  `good_checksum` starts `False` (line 72).  On the
real accumulated `str` the loop body would in fact raise `AttributeError`
(`telegram[...].decode` on a `str`, line 183), but the body is unreachable:
the pattern never matches the escaped text (theorem `checksum_never_computed`). -/
def checksumScan (t : List Char) : ScanState :=
  (termMatchEnds t).foldl
    (fun st e =>
      let g := pyIntHex (t.drop (e + 1))
      let c := crc16 ((t.take (e + 1)).map Char.toNat)
      { good := if g = some c then true else st.good, given := g, computed := some c })
    ⟨false, none, none⟩

/-- Outcome of the validation gate of lines 189-197: either report the failed
checksum and skip the telegram, or proceed to field decoding. -/
inductive ValidationResult
  | invalidReport (given computed : Option Nat)
  | proceedDecode
deriving DecidableEq

/-- Line 189: `good_checksum = True`, unconditionally, discarding whatever the
checksum loop computed. -/
def goodChecksumOverridden (t : List Char) : Bool := true

/-- Lines 189-197: the gate that decides between reporting a bad checksum and
decoding.  Because of the line-189 overwrite it always proceeds. -/
def validateTelegram (t : List Char) : ValidationResult :=
  if goodChecksumOverridden t then ValidationResult.proceedDecode
  else ValidationResult.invalidReport (checksumScan t).given (checksumScan t).computed

/-- The literal separator `\r\n'b'` (seven characters) used by line 203,
`telegram.split("\\r\\n'b'")`, to cut the escaped telegram text back into
lines: it is exactly the escaped CR LF of one line followed by the closing
quote of its `str(bytes)` text and the `b` and opening quote of the next. -/
def sepLit : List Char := ['\\', 'r', '\\', 'n', quoteC, 'b', quoteC]

/-- Line 206, `re.match('\\d', telegram_line)`: the line is processed only when
its first character is a decimal digit. -/
def digitFirst : List Char → Bool
  | [] => false
  | c :: _ => c.isDigit

/-- Line 213: `''.join(re.split('(\\()', line)[:1])` — the text before the
first `(` (the whole line when there is none). -/
def obisCode (l : List Char) : List Char := l.takeWhile (fun c => decide (c ≠ '('))

/-- Line 214: `''.join(re.split('(\\()', line)[1:])` — the text from the first
`(` onward, inclusive (empty when there is none). -/
def obisValue (l : List Char) : List Char := l.dropWhile (fun c => decide (c ≠ '('))

/-- Keys of an association list modelling a Python dict. -/
def dictKeys (d : List (List Char × α)) : List (List Char) := d.map Prod.fst

/-- Python dict lookup `d[k]` (as an `Option`). -/
def lookupDict : List (List Char × α) → List Char → Option α
  | [], _ => none
  | (k, v) :: rest, key => if k = key then some v else lookupDict rest key

/-- Python dict assignment `d[k] = v`: replace in place when the key exists,
append otherwise. -/
def dictInsert (d : List (List Char × α)) (k : List Char) (v : α) : List (List Char × α) :=
  if k ∈ dictKeys d then d.map (fun e => if e.1 = k then (k, v) else e)
  else d ++ [(k, v)]

/-- Build a dict from entries in order, later entries overwriting earlier ones. -/
def buildDict (es : List (List Char × α)) : List (List Char × α) :=
  es.foldl (fun d e => dictInsert d e.1 e.2) []

/-- Payload of the LAST entry in `es` whose key is `key` (`none` when absent). -/
def lastPayload (es : List (List Char × α)) (key : List Char) : Option α :=
  es.foldl (fun acc e => if e.1 = key then some e.2 else acc) none

/-- The loop of lines 203-215 building `telegram_values`: chunks of the split
whose first character is a digit are stored, keyed by the text before the
first `(`, with the text from `(` onward as the value. -/
def telegramValues (chunks : List (List Char)) : List (List Char × List Char) :=
  chunks.foldl
    (fun d l => if digitFirst l then dictInsert d (obisCode l) (obisValue l) else d) []

/-- The (code, payload) entries contributed by a chunk list, in order. -/
def entriesOfChunks (chunks : List (List Char)) : List (List Char × List Char) :=
  chunks.filterMap
    (fun l => if digitFirst l then some (obisCode l, obisValue l) else none)

/-- The whole Field Decoder (lines 203-215): split the accumulated telegram
text on `\r\n'b'` and collect the digit-first chunks into a dict. -/
def decodeFields (t : List Char) : List (List Char × List Char) :=
  telegramValues (splitOn sepLit t)

/-- Cut sets of the three `lstrip`/`rstrip` calls of lines 287-290.  Python
string escapes make them character SETS: `'\\('` is `\` and `(`;
`'\\)*m3'` is `\`, `)`, `*`, `m`, `3`; `'\\)*kWhA'` is `\`, `)`, `*`,
`k`, `W`, `h`, `A`. -/
def lstripParenSet : List Char := ['\\', '(']

/-- See `lstripParenSet`. -/
def rstripGasSet : List Char := ['\\', ')', '*', 'm', '3']

/-- See `lstripParenSet`. -/
def rstripPlainSet : List Char := ['\\', ')', '*', 'k', 'W', 'h', 'A']

/-- Function `clean_value` (lines 280-292).  The gas path is chosen purely on the
payload text containing `m3`; the OBIS code is not an argument.  On that path
`(time,value) = re.findall(...)` destructures the group list: any length other
than two raises `ValueError`, modelled as `none`.  `float(...)` failures are
also `none`. -/
def clean_value (value : List Char) : Option ℚ :=
  if containsSub ['m', '3'] value then
    match parenGroups value with
    | [_t, v] => pyFloat (pyRstrip rstripGasSet (pyLstrip lstripParenSet v))
    | _ => none
  else
    pyFloat (pyRstrip rstripPlainSet (pyLstrip lstripParenSet value))

/-- Keys of `list_of_interesting_codes` (lines 23-52); the human-readable
descriptions only feed the print layer and are omitted.  The gas meter channel
is `'1'`, so the last key is `0-1:24.2.1`. -/
def list_of_interesting_codes : List (List Char) :=
  [chrs "1-0:1.8.1", chrs "1-0:1.8.2", chrs "1-0:2.8.1", chrs "1-0:2.8.2",
   chrs "0-0:96.14.0", chrs "1-0:1.7.0", chrs "1-0:2.7.0", chrs "0-0:17.0.0",
   chrs "0-0:96.3.10", chrs "0-0:96.7.21", chrs "0-0:96.7.9", chrs "1-0:32.32.0",
   chrs "1-0:52.32.0", chrs "1-0:72:32.0", chrs "1-0:32.36.0", chrs "1-0:52.36.0",
   chrs "1-0:72.36.0", chrs "1-0:31.7.0", chrs "1-0:51.7.0", chrs "1-0:71.7.0",
   chrs "1-0:21.7.0", chrs "1-0:41.7.0", chrs "1-0:61.7.0", chrs "1-0:22.7.0",
   chrs "1-0:42.7.0", chrs "1-0:62.7.0", chrs "0-1:24.2.1"]

/-- Python string `<=`: lexicographic comparison by code point. -/
def strLe : List Char → List Char → Bool
  | [], _ => true
  | _ :: _, [] => false
  | a :: as, b :: bs =>
    if a.toNat < b.toNat then true
    else if b.toNat < a.toNat then false
    else strLe as bs

/-- Insert into a key-sorted list (helper of `sortItems`). -/
def insertSorted (x : List Char × α) : List (List Char × α) → List (List Char × α)
  | [] => [x]
  | y :: ys => if strLe x.1 y.1 then x :: y :: ys else y :: insertSorted x ys

/-- Python `sorted(d.items())` (line 224); keys are unique in a dict so
comparing keys suffices. -/
def sortItems (d : List (List Char × α)) : List (List Char × α) :=
  d.foldr insertSorted []

/-- The loop of lines 224-236: every known-registry code's payload is passed
through `clean_value`; an exception there (`none`) is uncaught and aborts the
whole loop — nothing of the telegram survives.  The collected list of cleaned
readings stands for what the loop hands to the print layer. -/
def decodeLoop : List (List Char × List Char) → Option (List (List Char × ℚ))
  | [] => some []
  | (k, v) :: rest =>
    if k ∈ list_of_interesting_codes then
      match clean_value v with
      | none => none
      | some q => (decodeLoop rest).map (fun out => (k, q) :: out)
    else decodeLoop rest

/-- Lines 224-236 applied to a decoded telegram dict, in Python's sorted order. -/
def decodeInteresting (d : List (List Char × List Char)) : Option (List (List Char × ℚ)) :=
  decodeLoop (sortItems d)

/-- Outcome of one pass of the capture loop (lines 133-175). -/
inductive CycleOutcome
  | processExit
  | continueLoop (telegram : List Char)
deriving DecidableEq

/-- One capture cycle, lines 133-175.  `openOk` is whether `ser.open()`
succeeds (line 139; on failure line 146 calls `sys.exit`, and `SystemExit`
is not caught by the `except Exception` handler).  `linesRead` are the byte
lines obtained before the read loop ends, `readRaised` whether it ended by an
exception (caught at line 165: printed, loop continues) rather than by the
`!` line.  `closeOk` is whether `ser.close()` succeeds (on failure line 175
calls `sys.exit`).  Afterwards the accumulated telegram is processed. -/
def captureCycle (openOk : Bool) (linesRead : List (List Char)) (readRaised : Bool)
    (closeOk : Bool) : CycleOutcome :=
  if openOk = false then CycleOutcome.processExit
  else if closeOk = false then CycleOutcome.processExit
  else CycleOutcome.continueLoop (accumulateTelegram linesRead)

/-! ## No carriage return survives `str(bytes)` escaping -/

lemma hexDigitChar_ne_cr (n : Nat) (h : n < 16) : hexDigitChar n ≠ '\r' := by
  interval_cases n <;> decide

lemma cr_not_mem_escChar (qc c : Char) (hq : qc.toNat ≠ 13) : '\r' ∉ escChar qc c := by
  unfold escChar
  split_ifs with h1 h2 h3 h4 h5 h6
  · decide
  · intro hmem
    simp only [List.mem_cons, List.not_mem_nil, or_false] at hmem
    rcases hmem with h | h
    · exact absurd h (by decide)
    · exact hq (by rw [← h]; rfl)
  · decide
  · decide
  · decide
  · intro hmem
    simp only [List.mem_cons, List.not_mem_nil, or_false] at hmem
    have hc : c.toNat = 13 := by rw [← hmem]; rfl
    omega
  · intro hmem
    simp only [List.mem_cons, List.not_mem_nil, or_false] at hmem
    rcases hmem with h | h | h | h
    · exact absurd h (by decide)
    · exact absurd h (by decide)
    · exact hexDigitChar_ne_cr _ (Nat.mod_lt _ (by norm_num)) h.symm
    · exact hexDigitChar_ne_cr _ (Nat.mod_lt _ (by norm_num)) h.symm

lemma reprQuote_toNat_ne (bs : List Char) : (reprQuote bs).toNat ≠ 13 := by
  unfold reprQuote
  split_ifs <;> decide

lemma cr_not_mem_pyBytesRepr (bs : List Char) : '\r' ∉ pyBytesRepr bs := by
  have hq := reprQuote_toNat_ne bs
  unfold pyBytesRepr
  intro hmem
  rcases List.mem_cons.mp hmem with h | hmem2
  · exact absurd h (by decide)
  rcases List.mem_cons.mp hmem2 with h | hmem3
  · exact hq (by rw [← h]; rfl)
  rcases List.mem_append.mp hmem3 with h | h
  · rcases List.mem_flatten.mp h with ⟨l, hl, hcr⟩
    rcases List.mem_map.mp hl with ⟨a, _, rfl⟩
    exact cr_not_mem_escChar _ _ hq hcr
  · rcases List.mem_cons.mp h with h | h
    · exact hq (by rw [← h]; rfl)
    · simp at h

lemma cr_not_mem_accumulateTelegram (lines : List (List Char)) :
    '\r' ∉ accumulateTelegram lines := by
  unfold accumulateTelegram
  intro hmem
  rcases List.mem_flatten.mp hmem with ⟨l, hl, hcr⟩
  rcases List.mem_map.mp hl with ⟨bs, _, rfl⟩
  exact cr_not_mem_pyBytesRepr bs hcr

lemma termMatchEnds_eq_nil (s : List Char) (h : '\r' ∉ s) : termMatchEnds s = [] := by
  unfold termMatchEnds
  rw [List.map_eq_nil_iff, List.filter_eq_nil_iff]
  intro i _hi
  simp only [decide_eq_true_eq]
  intro heq
  have hmem : '\r' ∈ (s.drop i).take 3 := by
    rw [heq]; exact List.mem_cons_self _ _
  exact h (List.drop_subset _ _ (List.take_subset _ _ hmem))

/-! ## C6 helper lemmas -/

lemma mem_insertSorted {α : Type} (x y : List Char × α) (l : List (List Char × α)) :
    x ∈ insertSorted y l ↔ x = y ∨ x ∈ l := by
  induction l with
  | nil => simp [insertSorted]
  | cons z zs ih =>
    unfold insertSorted
    split_ifs
    · simp [List.mem_cons]
    · simp only [List.mem_cons, ih]
      tauto

lemma mem_sortItems {α : Type} (x : List Char × α) (d : List (List Char × α)) :
    x ∈ sortItems d ↔ x ∈ d := by
  induction d with
  | nil => simp [sortItems]
  | cons e es ih =>
    show x ∈ insertSorted e (sortItems es) ↔ _
    rw [mem_insertSorted, ih, List.mem_cons]

lemma decodeLoop_none (items : List (List Char × List Char)) (k v : List Char)
    (hm : (k, v) ∈ items) (hk : k ∈ list_of_interesting_codes)
    (hv : clean_value v = none) : decodeLoop items = none := by
  induction items with
  | nil => simp at hm
  | cons e rest ih =>
    obtain ⟨k0, v0⟩ := e
    rcases List.mem_cons.mp hm with h | h
    · have h1 : k = k0 := congrArg Prod.fst h
      have h2 : v = v0 := congrArg Prod.snd h
      subst h1; subst h2
      unfold decodeLoop
      rw [if_pos hk, hv]
    · unfold decodeLoop
      split_ifs with hk0
      · rw [ih h]
        cases clean_value v0 <;> rfl
      · exact ih h

/-! ## Claim theorems -/

/-- C2: the claim says the checksum is computed as CRC-16 over the raw bytes up
to and including `!` and compared with the parsed hex digits.  In fact the
telegram is accumulated as Python `str(bytes)` escaped text, which contains no
real CR/LF characters, so the terminator pattern `\r\n(?=!)` never matches and
the checksum loop of lines 180-188 never computes or compares anything: for
EVERY list of raw byte lines the scan state stays at its initial value (flag
false, no parsed checksum, no computed CRC). -/
theorem checksum_never_computed (lines : List (List Char)) :
    checksumScan (accumulateTelegram lines) = ⟨false, none, none⟩ := by
  unfold checksumScan
  rw [termMatchEnds_eq_nil _ (cr_not_mem_accumulateTelegram lines)]
  rfl

set_option maxRecDepth 4000 in
/-- C1: concrete telegram `1-0:1.7.0(00.244*kW)\r\n!0000\r\n` whose stated
checksum (0) differs from the CRC-16 of the intended byte range (47238).  The
claim says such a telegram is reported and discarded; in fact the scan never
sets the good flag, yet line 189 overwrites `good_checksum` to `True` and the
gate proceeds to field decoding. -/
theorem checksum_validation_bypassed :
    crc16 ((chrs "1-0:1.7.0(00.244*kW)\r\n" ++ ['!']).map Char.toNat) ≠ 0
    ∧ (checksumScan
        (accumulateTelegram [chrs "1-0:1.7.0(00.244*kW)\r\n", chrs "!0000\r\n"])).good = false
    ∧ validateTelegram
        (accumulateTelegram [chrs "1-0:1.7.0(00.244*kW)\r\n", chrs "!0000\r\n"])
      = ValidationResult.proceedDecode := by
  refine ⟨by decide, ?_, rfl⟩
  rw [checksum_never_computed]

/-- C3 (counterexample): on a buffer with no terminator the claim says a
`Malformed` result distinct from `Invalid` is signalled and decoding does not
proceed.  The code has no such result: on the accumulated single junk line the
validation gate proceeds straight to field decoding as if the telegram were
valid. -/
theorem no_terminator_still_decodes_cx :
    validateTelegram (accumulateTelegram [chrs "/junk\r\n"])
      = ValidationResult.proceedDecode := rfl

/-- C3 (amended): on a buffer in which the terminator pattern finds no match,
the code does not crash, but it signals nothing: the checksum loop leaves its
initial state (no `Malformed`-like report exists anywhere), and because of the
unconditional `good_checksum = True` of line 189 the gate proceeds to decode
the buffer as if it were valid. -/
theorem no_terminator_behavior (t : List Char) (h : termMatchEnds t = []) :
    validateTelegram t = ValidationResult.proceedDecode
    ∧ checksumScan t = ⟨false, none, none⟩ := by
  constructor
  · rfl
  · unfold checksumScan
    rw [h]
    rfl

/-- C3 (witness): the amended behaviour at the concrete junk buffer. -/
theorem no_terminator_behavior_witness :
    termMatchEnds (accumulateTelegram [chrs "/junk\r\n"]) = []
    ∧ (validateTelegram (accumulateTelegram [chrs "/junk\r\n"])
         = ValidationResult.proceedDecode
       ∧ checksumScan (accumulateTelegram [chrs "/junk\r\n"]) = ⟨false, none, none⟩) :=
  ⟨by decide, no_terminator_behavior _ (by decide)⟩

/-- C7 (counterexample): the claim says no source error is process-terminating.
But when `ser.open()` fails, line 146 calls `sys.exit` and the process dies. -/
theorem open_failure_exits_cx :
    captureCycle false [] false true = CycleOutcome.processExit := rfl

/-- C7 (amended): an exception raised while reading lines is caught, printed
and only aborts the current cycle (the loop continues with whatever was
accumulated), but a failure of `ser.open()` or `ser.close()` terminates the
process via `sys.exit`; no explicit error value is returned anywhere. -/
theorem source_error_policy (o : Bool) (ls : List (List Char)) (r c : Bool) :
    (captureCycle o ls r c = CycleOutcome.processExit ↔ (o = false ∨ c = false))
    ∧ captureCycle true ls r true = CycleOutcome.continueLoop (accumulateTelegram ls) := by
  constructor
  · cases o <;> cases c <;> simp [captureCycle]
  · rfl

/-- C10: the gas path of `clean_value` is selected purely by the payload text
containing `m3` (the OBIS code is not even an argument of the function), and
on that path the tuple destructuring `(time,value) = re.findall(...)` raises
`ValueError` (modelled `none`) whenever the number of parenthesized groups is
not exactly two. -/
theorem gas_group_count_exception (v : List Char)
    (h1 : containsSub ['m', '3'] v = true)
    (h2 : (parenGroups v).length ≠ 2) :
    clean_value v = none := by
  unfold clean_value
  rw [if_pos h1]
  rcases hg : parenGroups v with _ | ⟨a, _ | ⟨b, _ | ⟨c, tl⟩⟩⟩
  · rfl
  · rfl
  · rw [hg] at h2; simp at h2
  · rfl

/-- C10 (witness): a payload containing `m3` with a single parenthesized group
makes `clean_value` fail. -/
theorem gas_group_count_exception_witness :
    (containsSub ['m', '3'] (chrs "(00001.001*m3)") = true
     ∧ (parenGroups (chrs "(00001.001*m3)")).length ≠ 2)
    ∧ clean_value (chrs "(00001.001*m3)") = none :=
  ⟨⟨by decide, by decide⟩, gas_group_count_exception _ (by decide) (by decide)⟩

/-- C4: the claim says the gas-style cleaner returns the numeric text's value
exactly, whatever its final digit.  `rstrip('\\)*m3')` strips the character
set `\`, `)`, `*`, `m`, `3`, so a numeric text ending in the digit `3` loses
digits: the payload `(200102151415S)(00001.003*m3)` decodes to 1, not to the
exact value 1003/1000 that parsing `00001.003` would give.  (This also
contradicts the function's own docstring, "Remove non-numbers from values".) -/
theorem gas_final_digit_stripped :
    clean_value (chrs "(200102151415S)(00001.003*m3)") = some 1
    ∧ pyFloat (chrs "00001.003") = some (1003 / 1000)
    ∧ (1 : ℚ) ≠ 1003 / 1000 := by
  refine ⟨?_, ?_, by norm_num⟩
  · have h : clean_value (chrs "(200102151415S)(00001.003*m3)")
        = pyFloat (chrs "00001.00") := rfl
    rw [h]
    have h2 : pyFloat (chrs "00001.00")
        = some ((1 : ℚ) * ((natOfDigits (chrs "00001") : ℚ)
            + (natOfDigits (chrs "00") : ℚ) / (10 : ℚ) ^ (2 : ℕ))) := rfl
    rw [h2]
    have h3 : natOfDigits (chrs "00001") = 1 := rfl
    have h4 : natOfDigits (chrs "00") = 0 := rfl
    rw [h3, h4]
    norm_num
  · have h2 : pyFloat (chrs "00001.003")
        = some ((1 : ℚ) * ((natOfDigits (chrs "00001") : ℚ)
            + (natOfDigits (chrs "003") : ℚ) / (10 : ℚ) ^ (3 : ℕ))) := rfl
    rw [h2]
    have h3 : natOfDigits (chrs "00001") = 1 := rfl
    have h4 : natOfDigits (chrs "003") = 3 := rfl
    rw [h3, h4]
    norm_num

/-- C6 (counterexample): the claim says a known-registry field whose payload
has no parseable numeral must not crash the decode of the whole telegram.  In
the code the `ValueError` from `float('')` is uncaught: with a perfectly good
`1-0:1.7.0` field present, a bad `1-0:1.8.1` payload `()` kills the entire
decode (`none`), so nothing of the telegram survives. -/
theorem decode_error_aborts_all_cx :
    decodeInteresting
      [(chrs "1-0:1.7.0", chrs "(00.244*kW)"), (chrs "1-0:1.8.1", chrs "()")] = none := by
  decide

/-- C6 (amended): whenever any entry of the decoded dict has a known-registry
code whose payload fails `clean_value` (an unhandled `ValueError`, not a
`DecodeError` value — no such value exists in the code), the loop of lines
224-236 over the sorted items aborts the whole telegram's decode. -/
theorem decode_failure_aborts_telegram (d : List (List Char × List Char))
    (k v : List Char) (hm : (k, v) ∈ d) (hk : k ∈ list_of_interesting_codes)
    (hv : clean_value v = none) :
    decodeInteresting d = none :=
  decodeLoop_none _ k v ((mem_sortItems _ _).mpr hm) hk hv

/-- C6 (witness): the amended statement at the concrete two-field dict. -/
theorem decode_failure_aborts_telegram_witness :
    ((chrs "1-0:1.8.1", chrs "()")
        ∈ [(chrs "1-0:1.7.0", chrs "(00.244*kW)"), (chrs "1-0:1.8.1", chrs "()")]
     ∧ chrs "1-0:1.8.1" ∈ list_of_interesting_codes
     ∧ clean_value (chrs "()") = none)
    ∧ decodeInteresting
        [(chrs "1-0:1.7.0", chrs "(00.244*kW)"), (chrs "1-0:1.8.1", chrs "()")] = none :=
  ⟨⟨by decide, by decide, by decide⟩,
   decode_failure_aborts_telegram _ (chrs "1-0:1.8.1") (chrs "()")
     (by decide) (by decide) (by decide)⟩

/-! ## Dict lemmas (Python dict as assoc list with replace-or-append insert) -/

lemma lookupDict_cons {α : Type} (k0 : List Char) (v0 : α) (rest : List (List Char × α))
    (key : List Char) :
    lookupDict ((k0, v0) :: rest) key = if k0 = key then some v0 else lookupDict rest key := rfl

lemma dictKeys_cons {α : Type} (k0 : List Char) (v0 : α) (rest : List (List Char × α)) :
    dictKeys ((k0, v0) :: rest) = k0 :: dictKeys rest := rfl

lemma mapReplace_cons {α : Type} (k : List Char) (v : α) (k0 : List Char) (v0 : α)
    (rest : List (List Char × α)) :
    ((k0, v0) :: rest).map (fun e => if e.1 = k then (k, v) else e)
      = (if k0 = k then (k, v) else (k0, v0))
          :: rest.map (fun e => if e.1 = k then (k, v) else e) := rfl

lemma lookup_mapReplace_self {α : Type} (d : List (List Char × α)) (k : List Char) (v : α)
    (hk : k ∈ dictKeys d) :
    lookupDict (d.map (fun e => if e.1 = k then (k, v) else e)) k = some v := by
  induction d with
  | nil => simp [dictKeys] at hk
  | cons e rest ih =>
    obtain ⟨k0, v0⟩ := e
    rw [mapReplace_cons]
    by_cases h0 : k0 = k
    · rw [if_pos h0, lookupDict_cons, if_pos rfl]
    · rw [if_neg h0, lookupDict_cons, if_neg h0]
      refine ih ?_
      rcases List.mem_cons.mp hk with h | h
      · exact absurd h.symm h0
      · exact h

lemma lookup_mapReplace_other {α : Type} (d : List (List Char × α)) (k : List Char) (v : α)
    (key : List Char) (hne : k ≠ key) :
    lookupDict (d.map (fun e => if e.1 = k then (k, v) else e)) key = lookupDict d key := by
  induction d with
  | nil => rfl
  | cons e rest ih =>
    obtain ⟨k0, v0⟩ := e
    rw [mapReplace_cons]
    by_cases h0 : k0 = k
    · rw [if_pos h0, lookupDict_cons, if_neg hne, ih, lookupDict_cons,
        if_neg (fun hq => hne (h0.symm.trans hq))]
    · rw [if_neg h0, lookupDict_cons, lookupDict_cons, ih]

lemma lookup_append_right {α : Type} (d l2 : List (List Char × α)) (key : List Char)
    (h : key ∉ dictKeys d) :
    lookupDict (d ++ l2) key = lookupDict l2 key := by
  induction d with
  | nil => rfl
  | cons e rest ih =>
    obtain ⟨k0, v0⟩ := e
    have h0 : k0 ≠ key := fun heq => h (List.mem_cons.mpr (Or.inl heq.symm))
    have h1 : key ∉ dictKeys rest := fun hm => h (List.mem_cons.mpr (Or.inr hm))
    show lookupDict ((k0, v0) :: (rest ++ l2)) key = _
    rw [lookupDict_cons, if_neg h0, ih h1]

lemma lookup_append_single_other {α : Type} (d : List (List Char × α)) (k : List Char)
    (v : α) (key : List Char) (hne : k ≠ key) :
    lookupDict (d ++ [(k, v)]) key = lookupDict d key := by
  induction d with
  | nil =>
    show lookupDict ((k, v) :: []) key = _
    rw [lookupDict_cons, if_neg hne]
  | cons e rest ih =>
    obtain ⟨k0, v0⟩ := e
    show lookupDict ((k0, v0) :: (rest ++ [(k, v)])) key = _
    rw [lookupDict_cons, lookupDict_cons, ih]

lemma dictKeys_mapReplace {α : Type} (d : List (List Char × α)) (k : List Char) (v : α) :
    dictKeys (d.map (fun e => if e.1 = k then (k, v) else e)) = dictKeys d := by
  induction d with
  | nil => rfl
  | cons e rest ih =>
    obtain ⟨k0, v0⟩ := e
    rw [mapReplace_cons]
    by_cases h0 : k0 = k
    · subst h0
      rw [if_pos rfl, dictKeys_cons, dictKeys_cons, ih]
    · rw [if_neg h0, dictKeys_cons, dictKeys_cons, ih]

lemma lookup_dictInsert {α : Type} (d : List (List Char × α)) (k : List Char) (v : α)
    (key : List Char) :
    lookupDict (dictInsert d k v) key = if k = key then some v else lookupDict d key := by
  unfold dictInsert
  split_ifs with hk hkey hkey
  · rw [← hkey]
    exact lookup_mapReplace_self d k v hk
  · exact lookup_mapReplace_other d k v key hkey
  · rw [← hkey, lookup_append_right d [(k, v)] k hk, lookupDict_cons, if_pos rfl]
  · exact lookup_append_single_other d k v key hkey

lemma nodup_keys_dictInsert {α : Type} (d : List (List Char × α)) (k : List Char) (v : α)
    (h : (dictKeys d).Nodup) : (dictKeys (dictInsert d k v)).Nodup := by
  unfold dictInsert
  split_ifs with hk
  · rw [dictKeys_mapReplace]
    exact h
  · have hkeys : dictKeys (d ++ [(k, v)]) = dictKeys d ++ [k] := by
      unfold dictKeys
      rw [List.map_append]
      rfl
    rw [hkeys]
    refine List.Nodup.append h (List.nodup_singleton k) ?_
    intro a ha hb
    rw [List.mem_singleton] at hb
    exact hk (hb ▸ ha)

lemma lastPayload_acc {α : Type} (key : List Char) (es : List (List Char × α)) :
    ∀ acc : Option α,
      es.foldl (fun a e => if e.1 = key then some e.2 else a) acc
        = match es.foldl (fun a e => if e.1 = key then some e.2 else a) none with
          | some v => some v
          | none => acc := by
  induction es with
  | nil => intro acc; rfl
  | cons e rest ih =>
    intro acc
    rw [List.foldl_cons, List.foldl_cons, ih, ih (if e.1 = key then some e.2 else none)]
    by_cases h0 : e.1 = key
    · rw [if_pos h0, if_pos h0]
      cases rest.foldl (fun a e => if e.1 = key then some e.2 else a) none <;> rfl
    · rw [if_neg h0, if_neg h0]
      cases rest.foldl (fun a e => if e.1 = key then some e.2 else a) none <;> rfl

lemma lookup_foldIns {α : Type} (key : List Char) (es : List (List Char × α)) :
    ∀ d : List (List Char × α),
      lookupDict (es.foldl (fun d e => dictInsert d e.1 e.2) d) key
        = match lastPayload es key with
          | some v => some v
          | none => lookupDict d key := by
  induction es with
  | nil => intro d; rfl
  | cons e rest ih =>
    intro d
    rw [List.foldl_cons, ih, lookup_dictInsert]
    show (match lastPayload rest key with
          | some v => some v
          | none => if e.1 = key then some e.2 else lookupDict d key)
        = match lastPayload (e :: rest) key with
          | some v => some v
          | none => lookupDict d key
    have hstep : lastPayload (e :: rest) key
        = match lastPayload rest key with
          | some v => some v
          | none => if e.1 = key then some e.2 else none := by
      unfold lastPayload
      rw [List.foldl_cons]
      exact lastPayload_acc key rest (if e.1 = key then some e.2 else none)
    rw [hstep]
    cases lastPayload rest key with
    | some v => rfl
    | none =>
      by_cases h0 : e.1 = key
      · rw [if_pos h0, if_pos h0]
      · rw [if_neg h0, if_neg h0]

lemma nodup_keys_foldIns {α : Type} (es : List (List Char × α)) :
    ∀ d : List (List Char × α), (dictKeys d).Nodup →
      (dictKeys (es.foldl (fun d e => dictInsert d e.1 e.2) d)).Nodup := by
  induction es with
  | nil => intro d h; exact h
  | cons e rest ih =>
    intro d h
    rw [List.foldl_cons]
    exact ih _ (nodup_keys_dictInsert d e.1 e.2 h)

lemma telegramValues_eq_buildFold (chunks : List (List Char)) :
    ∀ d : List (List Char × List Char),
      chunks.foldl
          (fun d l => if digitFirst l then dictInsert d (obisCode l) (obisValue l) else d) d
        = (entriesOfChunks chunks).foldl (fun d e => dictInsert d e.1 e.2) d := by
  induction chunks with
  | nil => intro d; rfl
  | cons l rest ih =>
    intro d
    rw [List.foldl_cons]
    unfold entriesOfChunks
    rw [List.filterMap_cons]
    by_cases h0 : digitFirst l
    · rw [if_pos h0, if_pos h0, List.foldl_cons]
      exact ih _
    · rw [if_neg h0, if_neg h0]
      exact ih _

/-- C9: for every telegram text and every code, the mapping produced by the
field-decoder loop holds exactly the payload of the LAST data chunk (chunk of
the `\r\n'b'` split whose first character is a digit) bearing that code —
`lastPayload` folds the entries keeping the most recent hit — and the keys of
the produced mapping are unique.  In particular, when a code occurs on more
than one data line, the later occurrence's payload wins. -/
theorem duplicate_code_last_wins (t : List Char) (key : List Char) :
    lookupDict (decodeFields t) key
      = lastPayload (entriesOfChunks (splitOn sepLit t)) key
    ∧ (dictKeys (decodeFields t)).Nodup := by
  constructor
  · show lookupDict
        ((splitOn sepLit t).foldl
          (fun d l => if digitFirst l then dictInsert d (obisCode l) (obisValue l) else d) [])
        key = _
    rw [telegramValues_eq_buildFold, lookup_foldIns]
    cases lastPayload (entriesOfChunks (splitOn sepLit t)) key <;> rfl
  · show (dictKeys
        ((splitOn sepLit t).foldl
          (fun d l => if digitFirst l then dictInsert d (obisCode l) (obisValue l) else d) [])).Nodup
    rw [telegramValues_eq_buildFold]
    exact nodup_keys_foldIns _ [] List.nodup_nil

/-! ## C5 helper lemmas: stripping around a numeric text -/

lemma findSub_m3_none (s : List Char) (h : 'm' ∉ s) : findSub ['m', '3'] s = none := by
  induction s with
  | nil => rfl
  | cons c rest ih =>
    have hlw : leadsWith ['m', '3'] (c :: rest) = false := by
      unfold leadsWith
      rw [if_neg (fun he => h (List.mem_cons.mpr (Or.inl he)))]
    unfold findSub
    rw [hlw, if_neg (by decide : ¬ (false = true)),
      ih (fun hm => h (List.mem_cons.mpr (Or.inr hm)))]
    rfl

lemma containsSub_m3_false (s : List Char) (h : 'm' ∉ s) :
    containsSub ['m', '3'] s = false := by
  unfold containsSub
  rw [findSub_m3_none s h]
  rfl

lemma dropWhile_all_append (p : Char → Bool) (l1 l2 : List Char)
    (h : ∀ c ∈ l1, p c = true) : List.dropWhile p (l1 ++ l2) = List.dropWhile p l2 := by
  induction l1 with
  | nil => rfl
  | cons a l ih =>
    rw [List.cons_append, List.dropWhile_cons, if_pos (h a (List.mem_cons_self a l))]
    exact ih (fun c hc => h c (List.mem_cons.mpr (Or.inr hc)))

lemma pyRstrip_eq_of (cutset nt tail : List Char) (hnt : nt ≠ [])
    (hall : ∀ c ∈ nt, decide (c ∈ cutset) = false)
    (htail : ∀ c ∈ tail, decide (c ∈ cutset) = true) :
    pyRstrip cutset (nt ++ tail) = nt := by
  unfold pyRstrip
  rw [List.reverse_append]
  rw [dropWhile_all_append _ _ _ (fun c hc => htail c (List.mem_reverse.mp hc))]
  obtain ⟨c1, l', hrev⟩ : ∃ c1 l', nt.reverse = c1 :: l' := by
    cases h : nt.reverse with
    | nil => exact absurd (List.reverse_eq_nil_iff.mp h) hnt
    | cons a b => exact ⟨a, b, rfl⟩
  have hc1 : ¬ (decide (c1 ∈ cutset) = true) := by
    rw [hall c1 (List.mem_reverse.mp (hrev ▸ List.mem_cons_self c1 l'))]
    decide
  rw [hrev, List.dropWhile_cons, if_neg hc1, ← hrev, List.reverse_reverse]

lemma digitDot_not_lstrip (c : Char) (h : c.isDigit = true ∨ c = '.') :
    decide (c ∈ lstripParenSet) = false := by
  rcases h with h | rfl
  · refine decide_eq_false ?_
    intro hmem
    fin_cases hmem <;> simp_all
  · decide

lemma digitDot_not_rstripPlain (c : Char) (h : c.isDigit = true ∨ c = '.') :
    decide (c ∈ rstripPlainSet) = false := by
  rcases h with h | rfl
  · refine decide_eq_false ?_
    intro hmem
    fin_cases hmem <;> simp_all
  · decide

/-- C5: for every numeric text (digits with at most one dot, accepted by
`float`) and unit tag among nothing, `*kWh`, `*kW`, `*A`, the plain path of
`clean_value` strips the leading `(`, the trailing `)` and the tag characters
and returns exactly `float` of the numeric text.  The character sets of
`rstrip('\\)*kWhA')` contain no digits, so — unlike the gas path — no digit of
the numeric text is ever lost. -/
theorem clean_value_plain_correct (nt u : List Char)
    (hd : ∀ c ∈ nt, c.isDigit = true ∨ c = '.')
    (hp : (pyFloat nt).isSome = true)
    (hu : u ∈ [([] : List Char), chrs "*kWh", chrs "*kW", chrs "*A"]) :
    clean_value ('(' :: (nt ++ (u ++ [')']))) = pyFloat nt := by
  have hne : nt ≠ [] := by
    intro h
    rw [h] at hp
    exact absurd hp (by decide)
  simp only [List.mem_cons, List.not_mem_nil, or_false] at hu
  have hm : 'm' ∉ '(' :: (nt ++ (u ++ [')'])) := by
    intro hmem
    rcases List.mem_cons.mp hmem with h | h
    · exact absurd h (by decide)
    rcases List.mem_append.mp h with h | h
    · rcases hd 'm' h with h1 | h1
      · exact absurd h1 (by decide)
      · exact absurd h1 (by decide)
    rcases List.mem_append.mp h with h | h
    · rcases hu with rfl | rfl | rfl | rfl
      · simp at h
      · exact absurd h (by decide)
      · exact absurd h (by decide)
      · exact absurd h (by decide)
    · rcases List.mem_cons.mp h with h | h
      · exact absurd h (by decide)
      · simp at h
  unfold clean_value
  rw [containsSub_m3_false _ hm, if_neg (by decide : ¬ (false = true))]
  obtain ⟨c0, nt', rfl⟩ : ∃ c0 nt', nt = c0 :: nt' := by
    cases nt with
    | nil => exact absurd rfl hne
    | cons a b => exact ⟨a, b, rfl⟩
  have hl : pyLstrip lstripParenSet ('(' :: ((c0 :: nt') ++ (u ++ [')'])))
      = (c0 :: nt') ++ (u ++ [')']) := by
    unfold pyLstrip
    rw [List.dropWhile_cons, if_pos (by decide)]
    have hc0 : ¬ (decide (c0 ∈ lstripParenSet) = true) := by
      rw [digitDot_not_lstrip c0 (hd c0 (List.mem_cons_self c0 nt'))]
      decide
    rw [List.cons_append, List.dropWhile_cons, if_neg hc0]
  have hr : pyRstrip rstripPlainSet ((c0 :: nt') ++ (u ++ [')'])) = c0 :: nt' := by
    refine pyRstrip_eq_of _ _ _ (by simp) ?_ ?_
    · intro c hc
      exact digitDot_not_rstripPlain c (hd c hc)
    · intro c hc
      rcases hu with rfl | rfl | rfl | rfl
      · revert c hc
        decide
      · revert c hc
        decide
      · revert c hc
        decide
      · revert c hc
        decide
  rw [hl, hr]

/-- C5 (witness): decoding the payload of the field `1-0:1.7.0(00.244*kW)`
through the plain path yields exactly 0.244. -/
theorem clean_value_plain_correct_witness :
    ((∀ c ∈ chrs "00.244", c.isDigit = true ∨ c = '.')
     ∧ (pyFloat (chrs "00.244")).isSome = true
     ∧ chrs "*kW" ∈ [([] : List Char), chrs "*kWh", chrs "*kW", chrs "*A"])
    ∧ clean_value (chrs "(00.244*kW)") = some ((244 : ℚ) / 1000) := by
  refine ⟨⟨by decide, by decide, by decide⟩, ?_⟩
  have h := clean_value_plain_correct (chrs "00.244") (chrs "*kW")
    (by decide) (by decide) (by decide)
  have he : ('(' :: (chrs "00.244" ++ (chrs "*kW" ++ [')']))) = chrs "(00.244*kW)" := by
    decide
  rw [he] at h
  rw [h]
  have h2 : pyFloat (chrs "00.244")
      = some ((1 : ℚ) * ((natOfDigits (chrs "00") : ℚ)
          + (natOfDigits (chrs "244") : ℚ) / (10 : ℚ) ^ (3 : ℕ))) := rfl
  rw [h2, show natOfDigits (chrs "00") = 0 from rfl,
    show natOfDigits (chrs "244") = 244 from rfl]
  norm_num

/-! ## C8: shape of the accumulated telegram and of its split -/

/-- Characters that telegram line contents are made of: printable ASCII
without backslash or quotes (real DSMR lines are OBIS digits, separators,
letters, parentheses, `*`, `!`, `/`).  Under this condition `str(bytes)`
escaping is the identity on the content. -/
def wfChar (c : Char) : Prop :=
  32 ≤ c.toNat ∧ c.toNat ≤ 126 ∧ c ≠ '\\' ∧ c ≠ quoteC ∧ c ≠ dquoteC

/-- All characters of a line content are `wfChar`. -/
def wfContent (l : List Char) : Prop := ∀ c ∈ l, wfChar c

instance (c : Char) : Decidable (wfChar c) := by
  unfold wfChar
  infer_instance

instance (l : List Char) : Decidable (wfContent l) := by
  unfold wfContent
  infer_instance

lemma escChar_id (c : Char) (h : wfChar c) : escChar quoteC c = [c] := by
  obtain ⟨h1, h2, h3, h4, _⟩ := h
  unfold escChar
  rw [if_neg h3, if_neg h4, if_neg (by omega), if_neg (by omega), if_neg (by omega),
    if_pos ⟨h1, h2⟩]

lemma flatten_map_escChar (c : List Char) (h : wfContent c) :
    (c.map (escChar quoteC)).flatten = c := by
  induction c with
  | nil => rfl
  | cons a l ih =>
    rw [List.map_cons, List.flatten_cons, escChar_id a (h a (List.mem_cons_self a l)),
      ih (fun x hx => h x (List.mem_cons.mpr (Or.inr hx)))]
    rfl

lemma reprQuote_wf (c : List Char) (h : wfContent c) :
    reprQuote (c ++ ['\r', '\n']) = quoteC := by
  unfold reprQuote
  rw [if_neg]
  intro hc
  rcases List.mem_append.mp hc.1 with hm | hm
  · exact (h _ hm).2.2.2.1 rfl
  · exact absurd hm (by decide)

lemma pyBytesRepr_wf (c : List Char) (h : wfContent c) :
    pyBytesRepr (c ++ ['\r', '\n'])
      = 'b' :: quoteC :: (c ++ ['\\', 'r', '\\', 'n', quoteC]) := by
  unfold pyBytesRepr
  rw [reprQuote_wf c h, List.map_append, List.flatten_append, flatten_map_escChar c h]
  rw [show List.map (escChar quoteC) ['\r', '\n'] = [['\\', 'r'], ['\\', 'n']] from by decide]
  simp [List.append_assoc]

/-- The telegram text after the leading `b` and quote: line contents joined by
the seven-character seam `\r\n'b'`, ending with the escaped final CR LF and
the closing quote. -/
def tailStr : List (List Char) → List Char
  | [] => []
  | [c] => c ++ ['\\', 'r', '\\', 'n', quoteC]
  | c :: rest => c ++ sepLit ++ tailStr rest

lemma tailStr_single (c : List Char) : tailStr [c] = c ++ ['\\', 'r', '\\', 'n', quoteC] := rfl

lemma tailStr_cons_cons (c a : List Char) (tl : List (List Char)) :
    tailStr (c :: (a :: tl)) = c ++ sepLit ++ tailStr (a :: tl) := rfl

lemma accumulate_shape (cs : List (List Char)) (h : ∀ c ∈ cs, wfContent c) (hne : cs ≠ []) :
    accumulateTelegram (cs.map (fun l => l ++ ['\r', '\n']))
      = 'b' :: quoteC :: tailStr cs := by
  induction cs with
  | nil => exact absurd rfl hne
  | cons c rest ih =>
    have hc : wfContent c := h c (List.mem_cons_self c rest)
    cases rest with
    | nil =>
      show (pyBytesRepr (c ++ ['\r', '\n']) ++ []) = _
      rw [List.append_nil, pyBytesRepr_wf c hc, tailStr_single]
    | cons c2 rest2 =>
      show pyBytesRepr (c ++ ['\r', '\n'])
          ++ accumulateTelegram ((c2 :: rest2).map (fun l => l ++ ['\r', '\n'])) = _
      rw [ih (fun x hx => h x (List.mem_cons.mpr (Or.inr hx))) (by simp),
        pyBytesRepr_wf c hc, tailStr_cons_cons]
      simp [sepLit, List.append_assoc]

lemma leadsWith_refl_append (sep r : List Char) : leadsWith sep (sep ++ r) = true := by
  induction sep with
  | nil => rfl
  | cons a tl ih =>
    show leadsWith (a :: tl) (a :: (tl ++ r)) = true
    unfold leadsWith
    rw [if_pos rfl, ih]

lemma leadsWith_length (pre l : List Char) (h : leadsWith pre l = true) :
    pre.length ≤ l.length := by
  induction pre generalizing l with
  | nil => simp
  | cons a tl ih =>
    cases l with
    | nil =>
      rw [show leadsWith (a :: tl) [] = false from rfl] at h
      exact absurd h (by decide)
    | cons b bs =>
      unfold leadsWith at h
      by_cases hab : a = b
      · rw [if_pos hab] at h
        have := ih bs h
        simp only [List.length_cons]
        omega
      · rw [if_neg hab] at h
        exact absurd h (by decide)

lemma findSub_boundary (sep x r : List Char) (hsep : ∃ tl, sep = '\\' :: tl)
    (hx : '\\' ∉ x) : findSub sep (x ++ (sep ++ r)) = some x.length := by
  induction x with
  | nil =>
    obtain ⟨tl, rfl⟩ := hsep
    show findSub ('\\' :: tl) ('\\' :: (tl ++ r)) = some 0
    unfold findSub
    rw [if_pos (show leadsWith ('\\' :: tl) ('\\' :: (tl ++ r)) = true from
      leadsWith_refl_append ('\\' :: tl) r)]
  | cons a x' ih =>
    obtain ⟨tl, hseptl⟩ := hsep
    have ha : a ≠ '\\' := fun he => hx (he ▸ List.mem_cons_self a x')
    have hlw : leadsWith sep (a :: (x' ++ (sep ++ r))) = false := by
      rw [hseptl]
      unfold leadsWith
      rw [if_neg (fun he => ha he.symm)]
    show findSub sep (a :: (x' ++ (sep ++ r))) = _
    unfold findSub
    rw [hlw, if_neg (by decide : ¬ (false = true)),
      ih (fun hm => hx (List.mem_cons.mpr (Or.inr hm)))]
    rfl

lemma findSub_none_append (sep x y : List Char) (hsep : ∃ tl, sep = '\\' :: tl)
    (hx : '\\' ∉ x) (hy : findSub sep y = none) : findSub sep (x ++ y) = none := by
  induction x with
  | nil => exact hy
  | cons a x' ih =>
    obtain ⟨tl, hseptl⟩ := hsep
    have ha : a ≠ '\\' := fun he => hx (he ▸ List.mem_cons_self a x')
    have hlw : leadsWith sep (a :: (x' ++ y)) = false := by
      rw [hseptl]
      unfold leadsWith
      rw [if_neg (fun he => ha he.symm)]
    show findSub sep (a :: (x' ++ y)) = _
    unfold findSub
    rw [hlw, if_neg (by decide : ¬ (false = true)),
      ih (fun hm => hx (List.mem_cons.mpr (Or.inr hm)))]
    rfl

lemma findSub_some_le (needle s : List Char) (i : Nat) (hne : needle ≠ [])
    (h : findSub needle s = some i) : i + needle.length ≤ s.length := by
  induction s generalizing i with
  | nil =>
    have hlw : leadsWith needle [] = false := by
      cases needle with
      | nil => exact absurd rfl hne
      | cons a tl => rfl
    unfold findSub at h
    rw [hlw, if_neg (by decide : ¬ (false = true))] at h
    exact absurd h (by simp)
  | cons c rest ih =>
    unfold findSub at h
    by_cases hlw : leadsWith needle (c :: rest) = true
    · rw [if_pos hlw] at h
      have h0 : (0 : Nat) = i := Option.some.inj h
      have := leadsWith_length needle (c :: rest) hlw
      simp only [List.length_cons] at this ⊢
      omega
    · rw [if_neg hlw] at h
      cases hf : findSub needle rest with
      | none =>
        rw [hf] at h
        exact absurd h (by simp)
      | some j =>
        rw [hf] at h
        have hij : j + 1 = i := by simpa using h
        have := ih j hf
        simp only [List.length_cons]
        omega

lemma splitOnFuel_succ (sep : List Char) (fuel : Nat) (s : List Char) :
    splitOnFuel sep (fuel + 1) s
      = match findSub sep s with
        | none => [s]
        | some i => s.take i :: splitOnFuel sep fuel (s.drop (i + sep.length)) := rfl

lemma splitOnFuel_succ_none (sep : List Char) (fuel : Nat) (s : List Char)
    (h : findSub sep s = none) : splitOnFuel sep (fuel + 1) s = [s] := by
  rw [splitOnFuel_succ, h]

lemma splitOnFuel_succ_some (sep : List Char) (fuel : Nat) (s : List Char) (i : Nat)
    (h : findSub sep s = some i) :
    splitOnFuel sep (fuel + 1) s
      = s.take i :: splitOnFuel sep fuel (s.drop (i + sep.length)) := by
  rw [splitOnFuel_succ, h]

lemma splitOnFuel_mono (sep : List Char) (hsep : sep ≠ []) :
    ∀ fuel s, s.length ≤ fuel → splitOnFuel sep fuel s = splitOnFuel sep s.length s := by
  intro fuel
  induction fuel using Nat.strong_induction_on with
  | _ fuel ih =>
    intro s hs
    cases fuel with
    | zero =>
      have hsnil : s = [] := List.length_eq_zero.mp (Nat.le_zero.mp hs)
      subst hsnil
      rfl
    | succ f =>
      have hsl : 1 ≤ sep.length := by
        cases sep with
        | nil => exact absurd rfl hsep
        | cons a tl => simp
      cases hf : findSub sep s with
      | none =>
        rw [splitOnFuel_succ_none sep f s hf]
        cases s with
        | nil => rfl
        | cons c rest =>
          rw [show (c :: rest).length = rest.length + 1 from rfl,
            splitOnFuel_succ_none sep rest.length (c :: rest) hf]
      | some i =>
        have hle := findSub_some_le sep s i hsep hf
        have hpos : 1 ≤ s.length := by omega
        obtain ⟨c, rest, rfl⟩ : ∃ c rest, s = c :: rest := by
          cases s with
          | nil => simp at hpos
          | cons a b => exact ⟨a, b, rfl⟩
        rw [splitOnFuel_succ_some sep f _ i hf]
        rw [show (c :: rest).length = rest.length + 1 from rfl,
          splitOnFuel_succ_some sep rest.length _ i hf]
        have hlen1 : ((c :: rest).drop (i + sep.length)).length ≤ f := by
          rw [List.length_drop]
          simp only [List.length_cons] at hle hs ⊢
          omega
        have hlen2 : ((c :: rest).drop (i + sep.length)).length ≤ rest.length := by
          rw [List.length_drop]
          simp only [List.length_cons] at hle ⊢
          omega
        rw [ih f (by omega) _ hlen1,
          ih rest.length (by simp only [List.length_cons] at hs ⊢; omega) _ hlen2]

lemma splitOn_single (s : List Char) (h : findSub sepLit s = none) :
    splitOn sepLit s = [s] := by
  unfold splitOn
  cases s with
  | nil => rfl
  | cons c rest =>
    rw [show (c :: rest).length = rest.length + 1 from rfl,
      splitOnFuel_succ_none sepLit rest.length (c :: rest) h]

lemma splitOn_boundary (x r : List Char) (hx : '\\' ∉ x) :
    splitOn sepLit (x ++ (sepLit ++ r)) = x :: splitOn sepLit r := by
  have hfs : findSub sepLit (x ++ (sepLit ++ r)) = some x.length :=
    findSub_boundary sepLit x r ⟨_, rfl⟩ hx
  have hlen : (x ++ (sepLit ++ r)).length = (x.length + r.length + 6) + 1 := by
    simp only [List.length_append, sepLit, List.length_cons, List.length_nil]
    omega
  unfold splitOn
  rw [hlen, splitOnFuel_succ_some _ _ _ _ hfs]
  congr 1
  · exact List.take_left x (sepLit ++ r)
  · have hdrop : (x ++ (sepLit ++ r)).drop (x.length + sepLit.length) = r := by
      rw [← List.append_assoc,
        show x.length + sepLit.length = (x ++ sepLit).length from by simp]
      exact List.drop_left _ _
    rw [hdrop, splitOnFuel_mono sepLit (by decide) _ r (by omega)]

/-- Expected chunks of the `\r\n'b'` split: the first line content glued to the
leading `b'`, the middle line contents verbatim, and the last line content
glued to the trailing escaped CR LF and closing quote. -/
def chunksOf : List Char → List (List Char) → List (List Char)
  | _, [] => []
  | pre, [c] => [pre ++ (c ++ ['\\', 'r', '\\', 'n', quoteC])]
  | pre, c :: rest => (pre ++ c) :: chunksOf [] rest

lemma chunksOf_single (pre c : List Char) :
    chunksOf pre [c] = [pre ++ (c ++ ['\\', 'r', '\\', 'n', quoteC])] := rfl

lemma chunksOf_cons_cons (pre c a : List Char) (tl : List (List Char)) :
    chunksOf pre (c :: (a :: tl)) = (pre ++ c) :: chunksOf [] (a :: tl) := rfl

lemma splitOn_tailStr (cs : List (List Char)) (hwf : ∀ c ∈ cs, '\\' ∉ c) (hne : cs ≠ []) :
    ∀ pre : List Char, '\\' ∉ pre →
      splitOn sepLit (pre ++ tailStr cs) = chunksOf pre cs := by
  induction cs with
  | nil => exact absurd rfl hne
  | cons c rest ih =>
    intro pre hpre
    have hc : '\\' ∉ c := hwf c (List.mem_cons_self c rest)
    have hnm : '\\' ∉ pre ++ c := by
      intro hm
      rcases List.mem_append.mp hm with h | h
      · exact hpre h
      · exact hc h
    cases rest with
    | nil =>
      rw [tailStr_single, chunksOf_single,
        show pre ++ (c ++ ['\\', 'r', '\\', 'n', quoteC])
          = (pre ++ c) ++ ['\\', 'r', '\\', 'n', quoteC] from
          (List.append_assoc pre c _).symm,
        splitOn_single _ (findSub_none_append sepLit (pre ++ c)
          ['\\', 'r', '\\', 'n', quoteC] ⟨_, rfl⟩ hnm (by decide))]
    | cons c2 rest2 =>
      rw [tailStr_cons_cons,
        show pre ++ (c ++ sepLit ++ tailStr (c2 :: rest2))
          = (pre ++ c) ++ (sepLit ++ tailStr (c2 :: rest2)) from by
          simp [List.append_assoc]]
      have hih := ih (fun x hx => hwf x (List.mem_cons.mpr (Or.inr hx))) (by simp)
        [] (by simp)
      rw [List.nil_append] at hih
      rw [splitOn_boundary (pre ++ c) _ hnm, hih, chunksOf_cons_cons]

lemma chunksOf_nil_append (mids : List (List Char)) (lst : List Char) :
    chunksOf [] (mids ++ [lst]) = mids ++ [lst ++ ['\\', 'r', '\\', 'n', quoteC]] := by
  induction mids with
  | nil => rfl
  | cons m ms ih =>
    obtain ⟨a, tl, heq⟩ : ∃ a tl, ms ++ [lst] = a :: tl := by
      cases hms : ms ++ [lst] with
      | nil => exact absurd hms (by simp)
      | cons a tl => exact ⟨a, tl, rfl⟩
    show chunksOf [] (m :: (ms ++ [lst])) = _
    rw [heq, chunksOf_cons_cons, ← heq, ih]
    rfl

lemma entriesOfChunks_cons_skip (l : List Char) (chunks : List (List Char))
    (h : digitFirst l = false) :
    entriesOfChunks (l :: chunks) = entriesOfChunks chunks := by
  unfold entriesOfChunks
  rw [List.filterMap_cons,
    show (if digitFirst l then some (obisCode l, obisValue l) else none)
      = (none : Option (List Char × List Char)) from by rw [h]; rfl]

lemma entriesOfChunks_append (l1 l2 : List (List Char)) :
    entriesOfChunks (l1 ++ l2) = entriesOfChunks l1 ++ entriesOfChunks l2 := by
  unfold entriesOfChunks
  exact List.filterMap_append l1 l2 _

set_option maxRecDepth 8000 in
/-- C8 (counterexample): the claim says EXACTLY the lines whose first character
is a decimal digit are processed.  But the field decoder splits the escaped
accumulated text on `\r\n'b'`, so the first line's chunk always begins with
`b'`: a telegram whose FIRST line is a digit-first data line produces an empty
mapping — the data line is silently dropped. -/
theorem first_line_not_processed_cx :
    digitFirst (chrs "1-0:1.8.1(x)") = true
    ∧ decodeFields (accumulateTelegram [chrs "1-0:1.8.1(x)\r\n", chrs "!0000\r\n"]) = [] := by
  exact ⟨by decide, by decide⟩

/-- C8 (amended): in a telegram of lines `c1, mids…, lst` (each CR-LF
terminated, contents printable without backslash or quotes) whose last line
starts with `!`, the Field Decoder processes exactly the MIDDLE lines whose
first character is a decimal digit — the first line is never processed, since
its chunk carries the `b'` prefix of the escaped representation — and each
processed line is split at its first `(`: the text before it is the stored
OBIS code, the text from `(` onward (inclusive) the stored payload, collected
into the dict with later duplicates overwriting earlier ones. -/
theorem field_decoder_lines (c1 : List Char) (mids : List (List Char)) (lst : List Char)
    (h1 : wfContent c1) (h2 : ∀ l ∈ mids, wfContent l) (h3 : wfContent lst)
    (hlast : lst.head? = some '!') :
    decodeFields
        (accumulateTelegram ((c1 :: (mids ++ [lst])).map (fun l => l ++ ['\r', '\n'])))
      = buildDict (entriesOfChunks mids) := by
  have hwfall : ∀ c ∈ c1 :: (mids ++ [lst]), wfContent c := by
    intro c hc
    rcases List.mem_cons.mp hc with rfl | hc
    · exact h1
    rcases List.mem_append.mp hc with hc | hc
    · exact h2 c hc
    · rw [List.mem_singleton] at hc
      subst hc
      exact h3
  have hnb : ∀ c ∈ c1 :: (mids ++ [lst]), '\\' ∉ c :=
    fun c hc hm => ((hwfall c hc) '\\' hm).2.2.1 rfl
  obtain ⟨a0, tl0, heq⟩ : ∃ a0 tl0, mids ++ [lst] = a0 :: tl0 := by
    cases hms : mids ++ [lst] with
    | nil => exact absurd hms (by simp)
    | cons a tl => exact ⟨a, tl, rfl⟩
  obtain ⟨le, lst', rfl⟩ : ∃ le lst', lst = le :: lst' := by
    cases lst with
    | nil => simp at hlast
    | cons a l => exact ⟨a, l, rfl⟩
  have hbang : le = '!' := by simpa using hlast
  subst hbang
  rw [accumulate_shape _ hwfall (by simp),
    show ('b' :: quoteC :: tailStr (c1 :: (mids ++ ['!' :: lst'])))
      = ['b', quoteC] ++ tailStr (c1 :: (mids ++ ['!' :: lst'])) from rfl]
  unfold decodeFields
  rw [splitOn_tailStr _ hnb (by simp) ['b', quoteC] (by decide),
    show chunksOf ['b', quoteC] (c1 :: (mids ++ ['!' :: lst']))
      = (['b', quoteC] ++ c1) :: chunksOf [] (mids ++ ['!' :: lst']) from by
        rw [heq]; rfl,
    chunksOf_nil_append]
  have hentries :
      entriesOfChunks ((['b', quoteC] ++ c1)
          :: (mids ++ [('!' :: lst') ++ ['\\', 'r', '\\', 'n', quoteC]]))
        = entriesOfChunks mids := by
    have hd1 : digitFirst (['b', quoteC] ++ c1) = false := rfl
    have hd2 : digitFirst (('!' :: lst') ++ ['\\', 'r', '\\', 'n', quoteC]) = false := rfl
    rw [entriesOfChunks_cons_skip _ _ hd1, entriesOfChunks_append,
      entriesOfChunks_cons_skip _ _ hd2,
      show entriesOfChunks [] = [] from rfl, List.append_nil]
  show ((['b', quoteC] ++ c1) :: (mids ++ [('!' :: lst') ++ ['\\', 'r', '\\', 'n', quoteC]])).foldl
      (fun d l => if digitFirst l then dictInsert d (obisCode l) (obisValue l) else d) [] = _
  rw [telegramValues_eq_buildFold, hentries]
  rfl

set_option maxRecDepth 8000 in
/-- C8 (witness): the amended statement at a concrete three-line telegram:
only the middle data line is decoded, split at its first `(`. -/
theorem field_decoder_lines_witness :
    (wfContent (chrs "/hdr")
     ∧ (∀ l ∈ [chrs "1-0:1.7.0(00.244*kW)"], wfContent l)
     ∧ wfContent (chrs "!0000")
     ∧ (chrs "!0000").head? = some '!')
    ∧ decodeFields
        (accumulateTelegram
          ((chrs "/hdr" :: ([chrs "1-0:1.7.0(00.244*kW)"] ++ [chrs "!0000"])).map
            (fun l => l ++ ['\r', '\n'])))
      = [(chrs "1-0:1.7.0", chrs "(00.244*kW)")] := by
  refine ⟨⟨by decide, by decide, by decide, by decide⟩, ?_⟩
  have h := field_decoder_lines (chrs "/hdr") [chrs "1-0:1.7.0(00.244*kW)"] (chrs "!0000")
    (by decide) (by decide) (by decide) (by decide)
  rw [h]
  decide
